import Mathlib

/-!
# Verification of the deltaimage diff/apply engine

A shallow embedding, in Lean 4, of the deltaimage repository (Rust sources
`src/main.rs`, `src/utils.rs`).  The engine rewrites a target directory tree
in place into a delta against a source tree (`diff`) and reconstructs it
(`apply`).

Modelling choices, all derived from the source:

* File contents are byte sequences, modelled as `List Nat`.
* A relative path is the sequence of its path components (the names produced
  by the directory walker), each component a byte sequence.
* Filesystem reads are pure inputs: the two walks of the target tree are given
  as a list of `TargetEntry` (one per regular file, in the walker's traversal
  order), and the contents of the source tree as a function.  The in-place
  filesystem writes performed by the engine are recorded as an explicit list
  of `Action` values, in execution order.
* `xdelta3::encode` / `xdelta3::decode` are black-box fallible codecs
  (`Bytes → Bytes → Option Bytes`), exactly as the Rust code treats them.
* Fatal errors (`return Err(...)` / the `?` operator) are modelled with
  `Except`; the error carries the actions performed before the abort.
-/

namespace Deltaimage

/-- A byte string (Rust `Vec<u8>` / the bytes of an `OsStr`). -/
abbrev Bytes := List Nat

/-- A relative path: the list of its components' names, as produced by
`drop_components` on a walked entry (never contains `.`, `..` or a root). -/
abbrev RelPath := List Bytes

/-- Filesystem identity of an inode: `(ino, dev)`, from `MetadataExt`. -/
abbrev Fsid := Nat × Nat

/-- The per-file metadata record of `utils.rs`:
`(modified, mode, uid, gid, xattrs, ino, dev)` as returned by
`get_meta_data`. -/
structure FileMeta where
  mtime : Nat
  mode : Nat
  uid : Nat
  gid : Nat
  xattrs : List (Bytes × Bytes)
  ino : Nat
  dev : Nat
deriving DecidableEq

/-- `enum Algo { XDelta3, AsIs }` from `main.rs`.  The Rust `derive(Ord)`
orders variants by declaration order, so `XDelta3 < AsIs`. -/
inductive Algo where
  | XDelta3
  | AsIs
deriving DecidableEq

/-- Discriminant of `Algo` under the Rust `derive(Ord)` instance. -/
def algoIdx : Algo → Nat
  | .XDelta3 => 0
  | .AsIs => 1

/-- `struct MetaData` of `main.rs`: the sidecar manifest.  Paths are stored as
raw byte strings (`rel_path.as_os_str().as_bytes()`). -/
structure MetaData where
  version : String
  keep_files : List Bytes
  changes : List (Algo × Bytes)
deriving DecidableEq

/-- `env!("CARGO_PKG_VERSION")`: a build-time constant of the crate.  Its
value comes from `Cargo.toml`, which is not part of the engine's logic; no
claim depends on it. -/
def crateVersion : String := "deltaimage"

/-- The byte encoding of a relative path (`as_os_str().as_bytes()`):
components joined by the `/` byte (47). -/
def pathBytes (p : RelPath) : Bytes :=
  List.intercalate [47] p

/-- One regular-file entry of the target-tree walk: its relative path, its
content, the metadata snapshot `get_meta_data` would take, and the link
count `metadata.nlink()`. -/
structure TargetEntry where
  relPath : RelPath
  content : Bytes
  meta : FileMeta
  nlink : Nat
deriving DecidableEq

/-- The filesystem mutations `diff` performs on the target tree, in execution
order.  `hardLink src dst` is `std::fs::hard_link(src, dst)` (a fresh link at
`dst` to the inode of `src`); `restoreMtime d t` is the
`filetime::set_file_times` call restoring a saved parent-directory mtime;
`writeManifest` is `serialize_to_json` of the manifest. -/
inductive Action where
  | removeFile (p : RelPath)
  | writeFile (p : RelPath) (content : Bytes)
  | setMeta (p : RelPath) (m : FileMeta)
  | hardLink (src : RelPath) (dst : RelPath)
  | restoreMtime (dir : RelPath) (t : Nat)
  | writeManifest (md : MetaData)
deriving DecidableEq

/-- The path of the regular file an action rewrites (`None` for the
directory-mtime restores and the manifest write, which do not touch any
walked regular file). -/
def fileActionPath : Action → Option RelPath
  | .removeFile p => some p
  | .writeFile p _ => some p
  | .setMeta p _ => some p
  | .hardLink _ dst => some dst
  | .restoreMtime _ _ => none
  | .writeManifest _ => none

/-- The error variants of `enum Error` in `main.rs` that the diff path can
produce, plus the apply-side deflation failure. -/
inductive DiffError where
  | XDelta3EncodeError
  | XDelta3FailedValidation (src : RelPath) (tgt : RelPath)
  | XDelta3FailedDeflation (src : Bytes) (tgt : Bytes)
deriving DecidableEq

/-- The pure inputs of a `diff` run: the patch codec, the contents of the
source tree, the observed mtime of each directory (relative to the target
root; `[]` is the target root itself), and the relative paths of the regular
files found by the phase-1 walk of the source tree. -/
structure DiffEnv where
  encode : Bytes → Bytes → Option Bytes
  decode : Bytes → Bytes → Option Bytes
  srcContent : RelPath → Bytes
  dirMtime : RelPath → Nat
  sourceFiles : List RelPath

/-- Association-list lookup (models `HashMap::get` / `entry` keyed lookups;
keys are inserted at most once, so first match suffices). -/
def assocFind {α β : Type} [DecidableEq α] (k : α) : List (α × β) → Option β
  | [] => none
  | (k', v) :: rest => if k' = k then some v else assocFind k rest

/-- The mutable state of the `diff` pass over the target tree. -/
structure DiffState where
  /-- `orig_files`, the `BTreeSet` of source file paths not yet matched. -/
  origFiles : List RelPath
  /-- the `changes` vector, in push order. -/
  changes : List (Algo × Bytes)
  /-- the `keep_files` vector, in push order. -/
  keepFiles : List Bytes
  /-- `parent_modtime_save`: parent directory → first-observed mtime. -/
  parentMtimes : List (RelPath × Nat)
  /-- the representative slot of each hardlink group, keyed by `(ino, dev)`
  (the shared `Rc<RefCell<Option<PathBuf>>>` cells, one per fsid). -/
  reps : List (Fsid × RelPath)
  /-- `total_size` debug counter. -/
  totalSize : Nat
  /-- `reduced_size` debug counter. -/
  reducedSize : Nat
  /-- the filesystem mutations performed so far, in order. -/
  actions : List Action
deriving DecidableEq

/-- `orig_files` after phase 1: the source walk inserts each regular file's
relative path into a set (duplicate insertions are no-ops). -/
def mkOrigFiles (l : List RelPath) : List RelPath :=
  l.foldl (fun acc p => if p ∈ acc then acc else acc ++ [p]) []

/-- The phase-2 walk of the target tree: every regular file whose link count
is at least 2 is keyed by its `(ino, dev)` in `path_link_groups`. -/
def linkGroupsOf (entries : List TargetEntry) : List (RelPath × Fsid) :=
  (entries.filter (fun e => 2 ≤ e.nlink)).map
    (fun e => (e.relPath, (e.meta.ino, e.meta.dev)))

/-- Record the parent directory's current mtime if this parent is not yet in
`parent_modtime_save` (the vacant-entry insert of `main.rs`). -/
def recordParentMtime (env : DiffEnv) (parent : RelPath) (s : DiffState) :
    DiffState :=
  match assocFind parent s.parentMtimes with
  | some _ => s
  | none =>
      { s with parentMtimes := s.parentMtimes ++ [(parent, env.dirMtime parent)] }

/-- `total_size += new_content.len()`. -/
def bumpTotalSize (n : Nat) (s : DiffState) : DiffState :=
  { s with totalSize := s.totalSize + n }

/-- The bookkeeping done for every matched file before classification:
remove the path from `orig_files`, save the parent directory's mtime, and
bump the `total_size` counter. -/
def matchedPre (env : DiffEnv) (s : DiffState) (e : TargetEntry) : DiffState :=
  bumpTotalSize e.content.length
    (recordParentMtime env e.relPath.dropLast
      { s with origFiles := s.origFiles.erase e.relPath })

/-- The content-comparison step for a matched file (the body of
`if old_content != new_content { ... } else { ... }` in `diff`):

* `new ≠ old`: `xdelta3::encode`; a `None` result aborts with
  `XDelta3EncodeError`.  Otherwise the round-trip `xdelta3::decode` of the
  fresh patch: bytes different from `new` abort with
  `XDelta3FailedValidation`; a `None` result falls back to storing `new`
  verbatim and recording `(AsIs, p)`; matching bytes store the patch and
  record `(XDelta3, p)`.
* `new = old`: the file is replaced by a zero-byte file and `p` is pushed to
  `keep_files`.

In each non-aborting branch the file is removed, rewritten, and the metadata
snapshot is reapplied. -/
def classifyFile (env : DiffEnv) (s : DiffState) (e : TargetEntry) :
    Except (List Action × DiffError) DiffState :=
  if env.srcContent e.relPath ≠ e.content then
    match env.encode e.content (env.srcContent e.relPath) with
    | none => .error (s.actions, .XDelta3EncodeError)
    | some delta =>
      match env.decode delta (env.srcContent e.relPath) with
      | some deflatedContent =>
        if deflatedContent ≠ e.content then
          .error (s.actions, .XDelta3FailedValidation e.relPath e.relPath)
        else
          .ok { s with
            reducedSize := s.reducedSize + delta.length,
            actions := s.actions ++
              [.removeFile e.relPath, .writeFile e.relPath delta,
               .setMeta e.relPath e.meta],
            changes := s.changes ++ [(.XDelta3, pathBytes e.relPath)] }
      | none =>
        .ok { s with
          actions := s.actions ++
            [.removeFile e.relPath, .writeFile e.relPath e.content,
             .setMeta e.relPath e.meta],
          changes := s.changes ++ [(.AsIs, pathBytes e.relPath)] }
  else
    .ok { s with
      actions := s.actions ++
        [.removeFile e.relPath, .writeFile e.relPath [],
         .setMeta e.relPath e.meta],
      keepFiles := s.keepFiles ++ [pathBytes e.relPath] }

/-- The hardlink short-circuit for a matched file, dispatching on
`path_link_groups.get(&rel_path)` (the `Option Fsid` argument) and, within a
group, on the representative slot. -/
def diffStepLink (env : DiffEnv) (s2 : DiffState) (e : TargetEntry) :
    Option Fsid → Except (List Action × DiffError) DiffState
  | some fsid =>
    match assocFind fsid s2.reps with
    | some otherPath =>
      .ok { s2 with actions := s2.actions ++
        [.removeFile e.relPath, .hardLink otherPath e.relPath] }
    | none =>
      classifyFile env { s2 with reps := s2.reps ++ [(fsid, e.relPath)] } e
  | none => classifyFile env s2 e

/-- Processing of one regular-file entry of the phase-3 target walk:

* a path absent from `orig_files` (target-only file) is left untouched;
* otherwise the path is matched: bookkeeping (`matchedPre`), then the
  hardlink short-circuit — a group whose representative slot is filled
  replaces the file with a hard link to the representative and records
  nothing; an empty slot is filled with this path and classification
  proceeds normally (`diffStepLink`). -/
def diffStep (env : DiffEnv) (lp : List (RelPath × Fsid)) (s : DiffState)
    (e : TargetEntry) : Except (List Action × DiffError) DiffState :=
  if e.relPath ∈ s.origFiles then
    diffStepLink env (matchedPre env s e) e (assocFind e.relPath lp)
  else
    .ok s

/-- The phase-3 loop over the target walk; a fatal error aborts the whole
pass. -/
def diffGo (env : DiffEnv) (lp : List (RelPath × Fsid)) :
    DiffState → List TargetEntry → Except (List Action × DiffError) DiffState
  | s, [] => .ok s
  | s, e :: es =>
    match diffStep env lp s e with
    | .error x => .error x
    | .ok s' => diffGo env lp s' es

/-- The initial state of the phase-3 loop. -/
def initState (env : DiffEnv) : DiffState :=
  { origFiles := mkOrigFiles env.sourceFiles
    changes := []
    keepFiles := []
    parentMtimes := []
    reps := []
    totalSize := 0
    reducedSize := 0
    actions := [] }

/-- The whole `diff` operation on the target tree, as a function of its pure
inputs: phase 1 (`mkOrigFiles`), phase 2 (`linkGroupsOf`), phase 3
(`diffGo`), then finalization — the saved parent-directory mtimes are
restored and afterwards the manifest is serialized to
`__deltaimage.meta.json`.  The result is the full ordered list of filesystem
mutations together with the manifest; a fatal error carries the mutations
performed before the abort. -/
def diff (env : DiffEnv) (entries : List TargetEntry) :
    Except (List Action × DiffError) (List Action × MetaData) :=
  match diffGo env (linkGroupsOf entries) (initState env) entries with
  | .error x => .error x
  | .ok s =>
    let md : MetaData :=
      { version := crateVersion, keep_files := s.keepFiles, changes := s.changes }
    .ok (s.actions
          ++ s.parentMtimes.map (fun dt => Action.restoreMtime dt.1 dt.2)
          ++ [.writeManifest md],
         md)

/-- The action trace of a diff run, whether it succeeded or aborted. -/
def diffActions : Except (List Action × DiffError) (List Action × MetaData) →
    List Action
  | .ok (tr, _) => tr
  | .error (tr, _) => tr

/-- Is this diff result a success? -/
def diffIsOk : Except (List Action × DiffError) (List Action × MetaData) → Bool
  | .ok _ => true
  | .error _ => false

/-- The manifest of a successful diff run (an empty manifest for an aborted
run, which produced none). -/
def diffManifest :
    Except (List Action × DiffError) (List Action × MetaData) → MetaData
  | .ok (_, md) => md
  | .error _ => { version := crateVersion, keep_files := [], changes := [] }

/-- Is this action the manifest serialization? -/
def isManifestWrite : Action → Bool
  | .writeManifest _ => true
  | _ => false

/-- Is this action a parent-directory mtime restore? -/
def isRestoreMtime : Action → Bool
  | .restoreMtime _ _ => true
  | _ => false

/-- `true` iff no mtime restore occurs before the (first) manifest write in
the trace — the order the specification prescribes for diff's finalization
phase. -/
def noRestoreBeforeManifest (l : List Action) : Bool :=
  (l.takeWhile (fun a => !(isManifestWrite a))).all
    (fun a => !(isRestoreMtime a))

/-!
## The apply side

`apply` loads the manifest, collects `md.changes` into a
`BTreeSet<(Algo, Vec<u8>)>`, and iterates that set in ascending order of the
Rust `derive(Ord)` instance: first by `Algo` (declaration order, so
`XDelta3 < AsIs`), then by the path bytes lexicographically.  We model the
`BTreeSet` as ordered insertion into a sorted duplicate-free list.
-/

/-- Strict lexicographic order on byte strings — the Rust `Ord` instance of
`Vec<u8>`. -/
def bytesLt : Bytes → Bytes → Bool
  | _, [] => false
  | [], _ :: _ => true
  | a :: as, b :: bs =>
    if a < b then true
    else if a = b then bytesLt as bs
    else false

/-- The Rust `derive(Ord)` order on `(Algo, Vec<u8>)`: by algorithm tag
first, then by path bytes. -/
def changeLt (x y : Algo × Bytes) : Bool :=
  if algoIdx x.1 < algoIdx y.1 then true
  else if algoIdx x.1 = algoIdx y.1 then bytesLt x.2 y.2
  else false

/-- Insertion into a `changeLt`-sorted duplicate-free list (a `BTreeSet`
insert: inserting an element already present is a no-op). -/
def insertChange (x : Algo × Bytes) :
    List (Algo × Bytes) → List (Algo × Bytes)
  | [] => [x]
  | y :: ys =>
    if changeLt x y then x :: y :: ys
    else if x = y then y :: ys
    else y :: insertChange x ys

/-- `md.changes.into_iter().collect::<BTreeSet<_>>()` followed by the
in-order iteration of the set: the sequence of `(algo, path)` entries
`apply`'s reconstruction loop processes, in processing order. -/
def sortedChanges (l : List (Algo × Bytes)) : List (Algo × Bytes) :=
  l.foldl (fun s x => insertChange x s) []

/-- The processing order of apply's "Handle modified files" loop for a given
manifest. -/
def applyChangesList (md : MetaData) : List (Algo × Bytes) :=
  sortedChanges md.changes

/-- The pure inputs of the apply-side reconstruction loop: the codec's
`decode`, and the contents/metadata reads keyed by the manifest's path
bytes. -/
structure ApplyEnv where
  decode : Bytes → Bytes → Option Bytes
  srcContent : Bytes → Bytes
  deltaContent : Bytes → Bytes
  deltaMeta : Bytes → FileMeta

/-- Filesystem mutations of the apply-side loops, keyed by the manifest's
path bytes. -/
inductive ApplyAction where
  | removeFile (p : Bytes)
  | writeFile (p : Bytes) (content : Bytes)
  | setMeta (p : Bytes) (m : FileMeta)
deriving DecidableEq

/-- One iteration of apply's "Handle modified files" loop: read the source
bytes and the patch, reconstruct (`XDelta3` decodes — a `None` result is the
fatal `XDelta3FailedDeflation`; `AsIs` takes the patch verbatim), then
remove, rewrite, and reapply the metadata snapshot. -/
def applyChangeStep (env : ApplyEnv) (acc : List ApplyAction)
    (c : Algo × Bytes) : Except DiffError (List ApplyAction) :=
  let orig := env.srcContent c.2
  let patchData := env.deltaContent c.2
  match (match c.1 with
         | .XDelta3 => env.decode patchData orig
         | .AsIs => some patchData) with
  | none => .error (.XDelta3FailedDeflation c.2 c.2)
  | some deflatedContent =>
    .ok (acc ++ [.removeFile c.2, .writeFile c.2 deflatedContent,
                 .setMeta c.2 (env.deltaMeta c.2)])

/-- Apply's "Handle modified files" phase: fold of `applyChangeStep` over the
`BTreeSet`-ordered changes of the manifest. -/
def applyChanges (env : ApplyEnv) (md : MetaData) :
    Except DiffError (List ApplyAction) :=
  (applyChangesList md).foldlM (applyChangeStep env) []

/-- The property claim C3 asserts of apply's processing order: consecutive
entries have ascending relative paths (order keyed on the path alone). -/
def pathsAscending (l : List (Algo × Bytes)) : Prop :=
  List.Pairwise (fun x y : Algo × Bytes => bytesLt x.2 y.2 = true ∨ x.2 = y.2) l

/-!
## The path-component model (`utils::drop_components`)

`drop_components(nr, path)` iterates `path.components()`, skips the first
`nr`, and pushes the remainder onto a fresh `PathBuf`.  Both `diff` and
`apply` use it with `nr = dir.components().count()` on paths of the form
`dir.join(rel)` produced by the directory walker.

A `std::path::Path` is modelled by the sequence of components it was built
from (`RawPath`).  Rust's `Components` iterator normalizes: a `.` component
is kept only at the very beginning of the path; `..` and normal components
are always kept (`componentsOf`).  `PathBuf::push` of a relative path
appends; pushing an absolute path (one starting with the root component)
replaces the buffer.  `PathBuf` equality compares the normalized component
sequences. -/

/-- A single `std::path::Component` (the Unix ones). -/
inductive Component where
  | rootDir
  | curDir
  | parentDir
  | normal (name : Bytes)
deriving DecidableEq

/-- A `PathBuf` as the raw sequence of components it was built from. -/
abbrev RawPath := List Component

/-- `path.components()`: occurrences of `.` are normalized away except at
the beginning of the path. -/
def componentsOf : RawPath → List Component
  | [] => []
  | c :: rest => c :: rest.filter (fun x => x ≠ Component.curDir)

/-- `PathBuf::push` of a single component: an absolute component (the root)
replaces the buffer, anything else is appended. -/
def pushComponent (b : RawPath) (c : Component) : RawPath :=
  if c = Component.rootDir then [Component.rootDir] else b ++ [c]

/-- `utils::drop_components`: skip the first `nr` components and re-push the
rest onto an empty `PathBuf`. -/
def drop_components (nr : Nat) (path : RawPath) : RawPath :=
  ((componentsOf path).drop nr).foldl pushComponent []

/-- `Path::join` (`PathBuf::push`): an absolute argument replaces the base,
a relative one is appended. -/
def joinPath (b r : RawPath) : RawPath :=
  if r.head? = some Component.rootDir then r else b ++ r

/-- Equality of `PathBuf`s: Rust compares the component sequences. -/
def pathEq (p q : RawPath) : Prop :=
  componentsOf p = componentsOf q

instance (p q : RawPath) : Decidable (pathEq p q) := by
  unfold pathEq; infer_instance

/-- `e` is not short-circuited as a later member of a hardlink group: either
it is in no multi-link group, or its group's representative slot is still
empty in `s`. -/
def notLaterMember (lp : List (RelPath × Fsid)) (s : DiffState)
    (e : TargetEntry) : Prop :=
  ∀ fsid, assocFind e.relPath lp = some fsid → assocFind fsid s.reps = none

/-- The number of occurrences of the entry `c` in a processing list. -/
def occurrences (c : Algo × Bytes) (l : List (Algo × Bytes)) : Nat :=
  (l.filter (fun x => x = c)).length

/-- The diff environment of the C1 fixtures: one source file `"a"` with
content `[1]`, and a codec whose `encode` always fails. -/
def envEncFail : DiffEnv :=
  { encode := fun _ _ => none
    decode := fun _ _ => none
    srcContent := fun _ => [1]
    dirMtime := fun _ => 0
    sourceFiles := [[[97]]] }

/-- The target entry of the C1 fixture: the matched file `"a"` with changed
content `[2]`. -/
def entChanged : TargetEntry := ⟨[[97]], [2], ⟨0, 0, 0, 0, [], 0, 0⟩, 1⟩

/-- The diff environment of the C2 fixture: one source file `"a"` with
content `[1]`, and a codec whose round trip returns wrong bytes. -/
def envBadCodec : DiffEnv :=
  { encode := fun _ _ => some [9]
    decode := fun _ _ => some [7]
    srcContent := fun _ => [1]
    dirMtime := fun _ => 0
    sourceFiles := [[[97]]] }

/-- The diff environment of the C4/C8 fixtures: a codec whose round trip is
the identity on the patch. -/
def envIdCodec : DiffEnv :=
  { encode := fun n _ => some n
    decode := fun d _ => some d
    srcContent := fun _ => [1]
    dirMtime := fun _ => 5
    sourceFiles := [[[97]]] }

/-!
## Helper lemmas: the per-file bookkeeping preserves the other state fields
-/

theorem recordParentMtime_origFiles (env : DiffEnv) (parent : RelPath)
    (s : DiffState) : (recordParentMtime env parent s).origFiles = s.origFiles := by
  unfold recordParentMtime; split <;> rfl

theorem recordParentMtime_actions (env : DiffEnv) (parent : RelPath)
    (s : DiffState) : (recordParentMtime env parent s).actions = s.actions := by
  unfold recordParentMtime; split <;> rfl

theorem recordParentMtime_changes (env : DiffEnv) (parent : RelPath)
    (s : DiffState) : (recordParentMtime env parent s).changes = s.changes := by
  unfold recordParentMtime; split <;> rfl

theorem recordParentMtime_keepFiles (env : DiffEnv) (parent : RelPath)
    (s : DiffState) : (recordParentMtime env parent s).keepFiles = s.keepFiles := by
  unfold recordParentMtime; split <;> rfl

theorem recordParentMtime_reps (env : DiffEnv) (parent : RelPath)
    (s : DiffState) : (recordParentMtime env parent s).reps = s.reps := by
  unfold recordParentMtime; split <;> rfl

theorem recordParentMtime_parentMtimes_mem (env : DiffEnv) (parent : RelPath)
    (s : DiffState) :
    ∀ dt ∈ (recordParentMtime env parent s).parentMtimes,
      dt ∈ s.parentMtimes ∨ dt.1 = parent := by
  unfold recordParentMtime
  split
  · exact fun dt h => Or.inl h
  · intro dt h
    simp only [List.mem_append, List.mem_singleton] at h
    rcases h with h | h
    · exact Or.inl h
    · subst h; exact Or.inr rfl

theorem matchedPre_origFiles (env : DiffEnv) (s : DiffState) (e : TargetEntry) :
    (matchedPre env s e).origFiles = s.origFiles.erase e.relPath := by
  have h1 : (matchedPre env s e).origFiles = (recordParentMtime env
      e.relPath.dropLast { s with origFiles := s.origFiles.erase e.relPath }).origFiles := rfl
  rw [h1, recordParentMtime_origFiles]

theorem matchedPre_actions (env : DiffEnv) (s : DiffState) (e : TargetEntry) :
    (matchedPre env s e).actions = s.actions := by
  have h1 : (matchedPre env s e).actions = (recordParentMtime env
      e.relPath.dropLast { s with origFiles := s.origFiles.erase e.relPath }).actions := rfl
  rw [h1, recordParentMtime_actions]

theorem matchedPre_changes (env : DiffEnv) (s : DiffState) (e : TargetEntry) :
    (matchedPre env s e).changes = s.changes := by
  have h1 : (matchedPre env s e).changes = (recordParentMtime env
      e.relPath.dropLast { s with origFiles := s.origFiles.erase e.relPath }).changes := rfl
  rw [h1, recordParentMtime_changes]

theorem matchedPre_keepFiles (env : DiffEnv) (s : DiffState) (e : TargetEntry) :
    (matchedPre env s e).keepFiles = s.keepFiles := by
  have h1 : (matchedPre env s e).keepFiles = (recordParentMtime env
      e.relPath.dropLast { s with origFiles := s.origFiles.erase e.relPath }).keepFiles := rfl
  rw [h1, recordParentMtime_keepFiles]

theorem matchedPre_reps (env : DiffEnv) (s : DiffState) (e : TargetEntry) :
    (matchedPre env s e).reps = s.reps := by
  have h1 : (matchedPre env s e).reps = (recordParentMtime env
      e.relPath.dropLast { s with origFiles := s.origFiles.erase e.relPath }).reps := rfl
  rw [h1, recordParentMtime_reps]

theorem matchedPre_parentMtimes_mem (env : DiffEnv) (s : DiffState)
    (e : TargetEntry) :
    ∀ dt ∈ (matchedPre env s e).parentMtimes,
      dt ∈ s.parentMtimes ∨ dt.1 = e.relPath.dropLast := by
  intro dt h
  have h' : dt ∈ (recordParentMtime env e.relPath.dropLast
      { s with origFiles := s.origFiles.erase e.relPath }).parentMtimes := h
  rcases recordParentMtime_parentMtimes_mem _ _ _ dt h' with h2 | h2
  · exact Or.inl h2
  · exact Or.inr h2

/-!
## Helper lemmas: the branches of `classifyFile`
-/

theorem classifyFile_keep (env : DiffEnv) (s : DiffState) (e : TargetEntry)
    (heq : env.srcContent e.relPath = e.content) :
    classifyFile env s e = .ok { s with
      actions := s.actions ++
        [.removeFile e.relPath, .writeFile e.relPath [], .setMeta e.relPath e.meta],
      keepFiles := s.keepFiles ++ [pathBytes e.relPath] } := by
  unfold classifyFile
  simp [heq]

theorem classifyFile_encode_fail (env : DiffEnv) (s : DiffState)
    (e : TargetEntry) (hne : env.srcContent e.relPath ≠ e.content)
    (henc : env.encode e.content (env.srcContent e.relPath) = none) :
    classifyFile env s e = .error (s.actions, .XDelta3EncodeError) := by
  unfold classifyFile
  simp [hne, henc]

theorem classifyFile_decode_fail (env : DiffEnv) (s : DiffState)
    (e : TargetEntry) (delta : Bytes)
    (hne : env.srcContent e.relPath ≠ e.content)
    (henc : env.encode e.content (env.srcContent e.relPath) = some delta)
    (hdec : env.decode delta (env.srcContent e.relPath) = none) :
    classifyFile env s e = .ok { s with
      actions := s.actions ++
        [.removeFile e.relPath, .writeFile e.relPath e.content,
         .setMeta e.relPath e.meta],
      changes := s.changes ++ [(Algo.AsIs, pathBytes e.relPath)] } := by
  unfold classifyFile
  simp [hne, henc, hdec]

theorem classifyFile_validation_fail (env : DiffEnv) (s : DiffState)
    (e : TargetEntry) (delta deflated : Bytes)
    (hne : env.srcContent e.relPath ≠ e.content)
    (henc : env.encode e.content (env.srcContent e.relPath) = some delta)
    (hdec : env.decode delta (env.srcContent e.relPath) = some deflated)
    (hmis : deflated ≠ e.content) :
    classifyFile env s e =
      .error (s.actions, .XDelta3FailedValidation e.relPath e.relPath) := by
  unfold classifyFile
  simp [hne, henc, hdec, hmis]

theorem classifyFile_ok_scope (env : DiffEnv) (s : DiffState) (e : TargetEntry)
    (s₁ : DiffState) (h : classifyFile env s e = .ok s₁) :
    s₁.origFiles = s.origFiles ∧ s₁.parentMtimes = s.parentMtimes ∧
    s₁.reps = s.reps ∧
    (∀ a ∈ s₁.actions, a ∈ s.actions ∨ fileActionPath a = some e.relPath) ∧
    (∀ b ∈ s₁.keepFiles, b ∈ s.keepFiles ∨ b = pathBytes e.relPath) ∧
    (∀ c ∈ s₁.changes, c ∈ s.changes ∨ c.2 = pathBytes e.relPath) := by
  unfold classifyFile at h
  split at h
  · split at h
    · exact absurd h (by simp)
    · split at h
      · split at h
        · exact absurd h (by simp)
        · cases h
          refine ⟨rfl, rfl, rfl, ?_, ?_, ?_⟩
          · intro a ha
            simp only [List.mem_append] at ha
            rcases ha with ha | ha
            · exact Or.inl ha
            · right
              simp only [List.mem_cons, List.not_mem_nil, or_false] at ha
              rcases ha with ha | ha | ha <;> subst ha <;> rfl
          · exact fun b hb => Or.inl hb
          · intro c hc
            simp only [List.mem_append, List.mem_singleton] at hc
            rcases hc with hc | hc
            · exact Or.inl hc
            · subst hc; exact Or.inr rfl
      · cases h
        refine ⟨rfl, rfl, rfl, ?_, ?_, ?_⟩
        · intro a ha
          simp only [List.mem_append] at ha
          rcases ha with ha | ha
          · exact Or.inl ha
          · right
            simp only [List.mem_cons, List.not_mem_nil, or_false] at ha
            rcases ha with ha | ha | ha <;> subst ha <;> rfl
        · exact fun b hb => Or.inl hb
        · intro c hc
          simp only [List.mem_append, List.mem_singleton] at hc
          rcases hc with hc | hc
          · exact Or.inl hc
          · subst hc; exact Or.inr rfl
  · cases h
    refine ⟨rfl, rfl, rfl, ?_, ?_, ?_⟩
    · intro a ha
      simp only [List.mem_append] at ha
      rcases ha with ha | ha
      · exact Or.inl ha
      · right
        simp only [List.mem_cons, List.not_mem_nil, or_false] at ha
        rcases ha with ha | ha | ha <;> subst ha <;> rfl
    · intro b hb
      simp only [List.mem_append, List.mem_singleton] at hb
      rcases hb with hb | hb
      · exact Or.inl hb
      · subst hb; exact Or.inr rfl
    · exact fun c hc => Or.inl hc

theorem classifyFile_err_actions (env : DiffEnv) (s : DiffState)
    (e : TargetEntry) (tr : List Action) (err : DiffError)
    (h : classifyFile env s e = .error (tr, err)) : tr = s.actions := by
  unfold classifyFile at h
  split at h
  · split at h
    · cases h; rfl
    · split at h
      · split at h
        · cases h; rfl
        · exact absurd h (by simp)
      · exact absurd h (by simp)
  · exact absurd h (by simp)

/-!
## Helper lemmas: `diffStep` and `diffGo`
-/

theorem diffStepLink_none (env : DiffEnv) (s2 : DiffState) (e : TargetEntry) :
    diffStepLink env s2 e none = classifyFile env s2 e := rfl

theorem diffStepLink_some_some (env : DiffEnv) (s2 : DiffState)
    (e : TargetEntry) (fsid : Fsid) (q : RelPath)
    (hr : assocFind fsid s2.reps = some q) :
    diffStepLink env s2 e (some fsid) =
      .ok { s2 with actions := s2.actions ++
        [.removeFile e.relPath, .hardLink q e.relPath] } := by
  simp only [diffStepLink]
  rw [hr]

theorem diffStepLink_some_none (env : DiffEnv) (s2 : DiffState)
    (e : TargetEntry) (fsid : Fsid)
    (hr : assocFind fsid s2.reps = none) :
    diffStepLink env s2 e (some fsid) =
      classifyFile env { s2 with reps := s2.reps ++ [(fsid, e.relPath)] } e := by
  simp only [diffStepLink]
  rw [hr]

theorem diffStep_matched_classify (env : DiffEnv) (lp : List (RelPath × Fsid))
    (s : DiffState) (e : TargetEntry) (hm : e.relPath ∈ s.origFiles)
    (hnl : notLaterMember lp s e) :
    ∃ s₂, diffStep env lp s e = classifyFile env s₂ e ∧
      s₂.actions = s.actions ∧ s₂.changes = s.changes ∧
      s₂.keepFiles = s.keepFiles := by
  unfold diffStep
  rw [if_pos hm]
  cases hf : assocFind e.relPath lp with
  | none =>
    rw [diffStepLink_none]
    exact ⟨matchedPre env s e, rfl, matchedPre_actions env s e,
      matchedPre_changes env s e, matchedPre_keepFiles env s e⟩
  | some fsid =>
    have hr : assocFind fsid (matchedPre env s e).reps = none := by
      rw [matchedPre_reps]; exact hnl fsid hf
    rw [diffStepLink_some_none env _ e fsid hr]
    refine ⟨_, rfl, ?_, ?_, ?_⟩
    · show (matchedPre env s e).actions = s.actions
      exact matchedPre_actions env s e
    · show (matchedPre env s e).changes = s.changes
      exact matchedPre_changes env s e
    · show (matchedPre env s e).keepFiles = s.keepFiles
      exact matchedPre_keepFiles env s e

theorem diffStep_ok_scope (env : DiffEnv) (lp : List (RelPath × Fsid))
    (s : DiffState) (e : TargetEntry) (s₁ : DiffState)
    (h : diffStep env lp s e = .ok s₁) :
    s₁.origFiles ⊆ s.origFiles ∧
    (∀ a ∈ s₁.actions, a ∈ s.actions ∨
      (e.relPath ∈ s.origFiles ∧ fileActionPath a = some e.relPath)) ∧
    (∀ b ∈ s₁.keepFiles, b ∈ s.keepFiles ∨
      (e.relPath ∈ s.origFiles ∧ b = pathBytes e.relPath)) ∧
    (∀ c ∈ s₁.changes, c ∈ s.changes ∨
      (e.relPath ∈ s.origFiles ∧ c.2 = pathBytes e.relPath)) ∧
    (∀ dt ∈ s₁.parentMtimes, dt ∈ s.parentMtimes ∨
      (e.relPath ∈ s.origFiles ∧ dt.1 = e.relPath.dropLast)) := by
  unfold diffStep at h
  by_cases hm : e.relPath ∈ s.origFiles
  · rw [if_pos hm] at h
    have hsub : (matchedPre env s e).origFiles ⊆ s.origFiles := by
      rw [matchedPre_origFiles]
      exact fun x hx => List.mem_of_mem_erase hx
    have hact := matchedPre_actions env s e
    have hch := matchedPre_changes env s e
    have hkf := matchedPre_keepFiles env s e
    have hpm := matchedPre_parentMtimes_mem env s e
    cases hf : assocFind e.relPath lp with
    | none =>
      rw [hf, diffStepLink_none] at h
      obtain ⟨ho, hp, hrp, ha, hb, hc⟩ := classifyFile_ok_scope env _ e s₁ h
      refine ⟨?_, ?_, ?_, ?_, ?_⟩
      · rw [ho]; exact hsub
      · intro a hma
        rcases ha a hma with h' | h'
        · rw [hact] at h'; exact Or.inl h'
        · exact Or.inr ⟨hm, h'⟩
      · intro b hmb
        rcases hb b hmb with h' | h'
        · rw [hkf] at h'; exact Or.inl h'
        · exact Or.inr ⟨hm, h'⟩
      · intro c hmc
        rcases hc c hmc with h' | h'
        · rw [hch] at h'; exact Or.inl h'
        · exact Or.inr ⟨hm, h'⟩
      · intro dt hdt
        rw [hp] at hdt
        rcases hpm dt hdt with h' | h'
        · exact Or.inl h'
        · exact Or.inr ⟨hm, h'⟩
    | some fsid =>
      rw [hf] at h
      cases hr : assocFind fsid (matchedPre env s e).reps with
      | some otherPath =>
        rw [diffStepLink_some_some env _ e fsid otherPath hr] at h
        cases h
        refine ⟨hsub, ?_, ?_, ?_, ?_⟩
        · intro a hma
          have hma' : a ∈ (matchedPre env s e).actions ++
              [Action.removeFile e.relPath,
               Action.hardLink otherPath e.relPath] := hma
          rw [hact] at hma'
          rcases List.mem_append.mp hma' with hma2 | hma2
          · exact Or.inl hma2
          · refine Or.inr ⟨hm, ?_⟩
            rcases List.mem_cons.mp hma2 with h3 | h3
            · subst h3; rfl
            · rcases List.mem_cons.mp h3 with h4 | h4
              · subst h4; rfl
              · exact absurd h4 (List.not_mem_nil a)
        · intro b hmb
          have hmb' : b ∈ (matchedPre env s e).keepFiles := hmb
          rw [hkf] at hmb'
          exact Or.inl hmb'
        · intro c hmc
          have hmc' : c ∈ (matchedPre env s e).changes := hmc
          rw [hch] at hmc'
          exact Or.inl hmc'
        · intro dt hdt
          have hdt' : dt ∈ (matchedPre env s e).parentMtimes := hdt
          rcases hpm dt hdt' with h' | h'
          · exact Or.inl h'
          · exact Or.inr ⟨hm, h'⟩
      | none =>
        rw [diffStepLink_some_none env _ e fsid hr] at h
        obtain ⟨ho, hp, hrp, ha, hb, hc⟩ := classifyFile_ok_scope env _ e s₁ h
        refine ⟨?_, ?_, ?_, ?_, ?_⟩
        · rw [ho]
          show (matchedPre env s e).origFiles ⊆ s.origFiles
          exact hsub
        · intro a hma
          rcases ha a hma with h' | h'
          · have h'' : a ∈ (matchedPre env s e).actions := h'
            rw [hact] at h''
            exact Or.inl h''
          · exact Or.inr ⟨hm, h'⟩
        · intro b hmb
          rcases hb b hmb with h' | h'
          · have h'' : b ∈ (matchedPre env s e).keepFiles := h'
            rw [hkf] at h''
            exact Or.inl h''
          · exact Or.inr ⟨hm, h'⟩
        · intro c hmc
          rcases hc c hmc with h' | h'
          · have h'' : c ∈ (matchedPre env s e).changes := h'
            rw [hch] at h''
            exact Or.inl h''
          · exact Or.inr ⟨hm, h'⟩
        · intro dt hdt
          rw [hp] at hdt
          have hdt' : dt ∈ (matchedPre env s e).parentMtimes := hdt
          rcases hpm dt hdt' with h' | h'
          · exact Or.inl h'
          · exact Or.inr ⟨hm, h'⟩
  · rw [if_neg hm] at h
    cases h
    exact ⟨fun x hx => hx, fun a ha => Or.inl ha, fun b hb => Or.inl hb,
      fun c hc => Or.inl hc, fun dt hdt => Or.inl hdt⟩

theorem diffGo_append (env : DiffEnv) (lp : List (RelPath × Fsid))
    (l1 l2 : List TargetEntry) (s : DiffState) :
    diffGo env lp s (l1 ++ l2) =
      match diffGo env lp s l1 with
      | .error x => .error x
      | .ok s' => diffGo env lp s' l2 := by
  induction l1 generalizing s with
  | nil => rfl
  | cons e es ih =>
    have h1 : diffGo env lp s ((e :: es) ++ l2) =
        match diffStep env lp s e with
        | .error x => .error x
        | .ok s' => diffGo env lp s' (es ++ l2) := rfl
    have h2 : diffGo env lp s (e :: es) =
        match diffStep env lp s e with
        | .error x => .error x
        | .ok s' => diffGo env lp s' es := rfl
    rw [h1, h2]
    cases diffStep env lp s e with
    | error x => rfl
    | ok s' => exact ih s'

theorem diffGo_ok_scope (env : DiffEnv) (lp : List (RelPath × Fsid)) :
    ∀ (entries : List TargetEntry) (s s' : DiffState),
    diffGo env lp s entries = .ok s' →
    s'.origFiles ⊆ s.origFiles ∧
    (∀ a ∈ s'.actions, a ∈ s.actions ∨
      ∃ e ∈ entries, e.relPath ∈ s.origFiles ∧ fileActionPath a = some e.relPath) ∧
    (∀ b ∈ s'.keepFiles, b ∈ s.keepFiles ∨
      ∃ e ∈ entries, e.relPath ∈ s.origFiles ∧ b = pathBytes e.relPath) ∧
    (∀ c ∈ s'.changes, c ∈ s.changes ∨
      ∃ e ∈ entries, e.relPath ∈ s.origFiles ∧ c.2 = pathBytes e.relPath) ∧
    (∀ dt ∈ s'.parentMtimes, dt ∈ s.parentMtimes ∨
      ∃ e ∈ entries, e.relPath ∈ s.origFiles ∧ dt.1 = e.relPath.dropLast) := by
  intro entries
  induction entries with
  | nil =>
    intro s s' h
    cases h
    exact ⟨fun x hx => hx, fun a ha => Or.inl ha, fun b hb => Or.inl hb,
      fun c hc => Or.inl hc, fun dt hdt => Or.inl hdt⟩
  | cons e es ih =>
    intro s s' h
    unfold diffGo at h
    cases hstep : diffStep env lp s e with
    | error x => rw [hstep] at h; exact absurd h (by simp)
    | ok s₁ =>
      rw [hstep] at h
      obtain ⟨go, ga, gb, gc, gdt⟩ := ih s₁ s' h
      obtain ⟨fo, fa, fb, fc, fdt⟩ := diffStep_ok_scope env lp s e s₁ hstep
      refine ⟨fun x hx => fo (go hx), ?_, ?_, ?_, ?_⟩
      · intro a hma
        rcases ga a hma with h' | ⟨e', he', hp', hf'⟩
        · rcases fa a h' with h'' | ⟨hm'', hf''⟩
          · exact Or.inl h''
          · exact Or.inr ⟨e, List.mem_cons_self e es, hm'', hf''⟩
        · exact Or.inr ⟨e', List.mem_cons_of_mem e he', fo hp', hf'⟩
      · intro b hmb
        rcases gb b hmb with h' | ⟨e', he', hp', hf'⟩
        · rcases fb b h' with h'' | ⟨hm'', hf''⟩
          · exact Or.inl h''
          · exact Or.inr ⟨e, List.mem_cons_self e es, hm'', hf''⟩
        · exact Or.inr ⟨e', List.mem_cons_of_mem e he', fo hp', hf'⟩
      · intro c hmc
        rcases gc c hmc with h' | ⟨e', he', hp', hf'⟩
        · rcases fc c h' with h'' | ⟨hm'', hf''⟩
          · exact Or.inl h''
          · exact Or.inr ⟨e, List.mem_cons_self e es, hm'', hf''⟩
        · exact Or.inr ⟨e', List.mem_cons_of_mem e he', fo hp', hf'⟩
      · intro dt hdt
        rcases gdt dt hdt with h' | ⟨e', he', hp', hf'⟩
        · rcases fdt dt h' with h'' | ⟨hm'', hf''⟩
          · exact Or.inl h''
          · exact Or.inr ⟨e, List.mem_cons_self e es, hm'', hf''⟩
        · exact Or.inr ⟨e', List.mem_cons_of_mem e he', fo hp', hf'⟩

theorem mem_mkOrigFiles (l : List RelPath) (p : RelPath) :
    p ∈ mkOrigFiles l ↔ p ∈ l := by
  have key : ∀ (l : List RelPath) (acc : List RelPath),
      p ∈ l.foldl (fun acc q => if q ∈ acc then acc else acc ++ [q]) acc ↔
        p ∈ acc ∨ p ∈ l := by
    intro l
    induction l with
    | nil => intro acc; simp
    | cons q l ih =>
      intro acc
      show p ∈ List.foldl _ (if q ∈ acc then acc else acc ++ [q]) l ↔ _
      rw [ih]
      by_cases hq : q ∈ acc
      · rw [if_pos hq]
        constructor
        · rintro (h | h)
          · exact Or.inl h
          · exact Or.inr (List.mem_cons_of_mem q h)
        · rintro (h | h)
          · exact Or.inl h
          · rcases List.mem_cons.mp h with h | h
            · subst h; exact Or.inl hq
            · exact Or.inr h
      · rw [if_neg hq]
        constructor
        · rintro (h | h)
          · rcases List.mem_append.mp h with h | h
            · exact Or.inl h
            · rcases List.mem_singleton.mp h with h
              subst h; exact Or.inr (List.mem_cons_self _ _)
          · exact Or.inr (List.mem_cons_of_mem q h)
        · rintro (h | h)
          · exact Or.inl (List.mem_append.mpr (Or.inl h))
          · rcases List.mem_cons.mp h with h | h
            · subst h
              exact Or.inl (List.mem_append.mpr (Or.inr (List.mem_singleton.mpr rfl)))
            · exact Or.inr h
  unfold mkOrigFiles
  rw [key l []]
  simp

theorem assocFind_append_last {α β : Type} [DecidableEq α] (k : α) (v : β)
    (l : List (α × β)) (h : assocFind k l = none) :
    assocFind k (l ++ [(k, v)]) = some v := by
  induction l with
  | nil => simp [assocFind]
  | cons x xs ih =>
    unfold assocFind at h ⊢
    by_cases hx : x.1 = k
    · rw [if_pos hx] at h; exact absurd h (by simp)
    · show (if x.1 = k then some x.2 else assocFind k (xs ++ [(k, v)])) = some v
      rw [if_neg hx]
      rw [if_neg hx] at h
      exact ih h

/-!
## Helper lemmas: the Rust `Ord` on `(Algo, Vec<u8>)` and the `BTreeSet`
-/

theorem bytesLt_irrefl (a : Bytes) : bytesLt a a = false := by
  induction a with
  | nil => rfl
  | cons x xs ih => simp [bytesLt, ih]

theorem bytesLt_trans : ∀ (a b c : Bytes), bytesLt a b = true →
    bytesLt b c = true → bytesLt a c = true := by
  intro a
  induction a with
  | nil =>
    intro b c hab hbc
    cases b with
    | nil => simp [bytesLt] at hab
    | cons y ys =>
      cases c with
      | nil => simp [bytesLt] at hbc
      | cons z zs => rfl
  | cons x xs ih =>
    intro b c hab hbc
    cases b with
    | nil => simp [bytesLt] at hab
    | cons y ys =>
      cases c with
      | nil => simp [bytesLt] at hbc
      | cons z zs =>
        simp only [bytesLt] at hab hbc ⊢
        by_cases h1 : x < y
        · by_cases h2 : y < z
          · have h3 : x < z := Nat.lt_trans h1 h2
            rw [if_pos h3]
          · rw [if_neg h2] at hbc
            by_cases h3 : y = z
            · subst h3
              rw [if_pos h1]
            · rw [if_neg h3] at hbc
              exact absurd hbc (by simp)
        · rw [if_neg h1] at hab
          by_cases h4 : x = y
          · subst h4
            rw [if_pos rfl] at hab
            by_cases h2 : x < z
            · rw [if_pos h2]
            · rw [if_neg h2] at hbc
              by_cases h3 : x = z
              · rw [if_pos h3] at hbc
                rw [if_neg h2, if_pos h3]
                exact ih ys zs hab hbc
              · rw [if_neg h3] at hbc
                exact absurd hbc (by simp)
          · rw [if_neg h4] at hab
            exact absurd hab (by simp)

theorem bytesLt_conn : ∀ (a b : Bytes), bytesLt a b = false → a ≠ b →
    bytesLt b a = true := by
  intro a
  induction a with
  | nil =>
    intro b h hne
    cases b with
    | nil => exact absurd rfl hne
    | cons y ys => exact absurd h (by simp [bytesLt])
  | cons x xs ih =>
    intro b h hne
    cases b with
    | nil => rfl
    | cons y ys =>
      simp only [bytesLt] at h ⊢
      by_cases h1 : x < y
      · rw [if_pos h1] at h
        exact absurd h (by simp)
      · rw [if_neg h1] at h
        by_cases h2 : x = y
        · subst h2
          rw [if_pos rfl] at h
          rw [if_neg (Nat.lt_irrefl x), if_pos rfl]
          exact ih ys h (fun he => hne (by rw [he]))
        · have h3 : y < x := by omega
          rw [if_pos h3]

theorem changeLt_irrefl (x : Algo × Bytes) : changeLt x x = false := by
  simp [changeLt, bytesLt_irrefl]

theorem changeLt_ne {x y : Algo × Bytes} (h : changeLt x y = true) : x ≠ y := by
  intro he
  subst he
  rw [changeLt_irrefl] at h
  exact absurd h (by simp)

theorem algoIdx_inj : ∀ a b : Algo, algoIdx a = algoIdx b → a = b
  | .XDelta3, .XDelta3, _ => rfl
  | .AsIs, .AsIs, _ => rfl
  | .XDelta3, .AsIs, h => absurd h (by simp [algoIdx])
  | .AsIs, .XDelta3, h => absurd h (by simp [algoIdx])

theorem changeLt_of_idx_lt {x y : Algo × Bytes}
    (h : algoIdx x.1 < algoIdx y.1) : changeLt x y = true := by
  unfold changeLt
  rw [if_pos h]

theorem changeLt_of_idx_eq {x y : Algo × Bytes}
    (he : algoIdx x.1 = algoIdx y.1) (hb : bytesLt x.2 y.2 = true) :
    changeLt x y = true := by
  unfold changeLt
  rw [if_neg (by omega), if_pos he]
  exact hb

theorem changeLt_cases {x y : Algo × Bytes} (h : changeLt x y = true) :
    algoIdx x.1 < algoIdx y.1 ∨
      (algoIdx x.1 = algoIdx y.1 ∧ bytesLt x.2 y.2 = true) := by
  unfold changeLt at h
  by_cases h1 : algoIdx x.1 < algoIdx y.1
  · exact Or.inl h1
  · rw [if_neg h1] at h
    by_cases h2 : algoIdx x.1 = algoIdx y.1
    · rw [if_pos h2] at h
      exact Or.inr ⟨h2, h⟩
    · rw [if_neg h2] at h
      exact absurd h (by simp)

theorem changeLt_false_cases {x y : Algo × Bytes} (h : changeLt x y = false) :
    ¬algoIdx x.1 < algoIdx y.1 ∧
      (algoIdx x.1 = algoIdx y.1 → bytesLt x.2 y.2 = false) := by
  unfold changeLt at h
  constructor
  · intro hlt
    rw [if_pos hlt] at h
    exact absurd h (by simp)
  · intro he
    rw [if_neg (by omega), if_pos he] at h
    exact h

theorem changeLt_trans {x y z : Algo × Bytes} (hxy : changeLt x y = true)
    (hyz : changeLt y z = true) : changeLt x z = true := by
  rcases changeLt_cases hxy with h1 | ⟨he1, hb1⟩ <;>
    rcases changeLt_cases hyz with h2 | ⟨he2, hb2⟩
  · exact changeLt_of_idx_lt (by omega)
  · exact changeLt_of_idx_lt (by omega)
  · exact changeLt_of_idx_lt (by omega)
  · exact changeLt_of_idx_eq (by omega) (bytesLt_trans _ _ _ hb1 hb2)

theorem changeLt_conn {x y : Algo × Bytes} (h : changeLt x y = false)
    (hne : x ≠ y) : changeLt y x = true := by
  rcases changeLt_false_cases h with ⟨hnlt, himp⟩
  by_cases he : algoIdx x.1 = algoIdx y.1
  · have hb := himp he
    have hne2 : x.2 ≠ y.2 := fun he2 =>
      hne (Prod.ext (algoIdx_inj _ _ he) he2)
    exact changeLt_of_idx_eq he.symm (bytesLt_conn _ _ hb hne2)
  · exact changeLt_of_idx_lt (by omega)

theorem mem_insertChange (x y : Algo × Bytes) :
    ∀ (l : List (Algo × Bytes)), y ∈ insertChange x l ↔ y = x ∨ y ∈ l := by
  intro l
  induction l with
  | nil => simp [insertChange]
  | cons z zs ih =>
    unfold insertChange
    by_cases h1 : changeLt x z = true
    · rw [if_pos h1]
      simp only [List.mem_cons]
    · rw [if_neg h1]
      by_cases h2 : x = z
      · rw [if_pos h2]
        subst h2
        simp only [List.mem_cons]
        tauto
      · rw [if_neg h2]
        simp only [List.mem_cons, ih]
        tauto

theorem pairwise_insertChange (x : Algo × Bytes) :
    ∀ (l : List (Algo × Bytes)),
    List.Pairwise (fun a b => changeLt a b = true) l →
    List.Pairwise (fun a b => changeLt a b = true) (insertChange x l) := by
  intro l
  induction l with
  | nil =>
    intro _
    simp [insertChange]
  | cons z zs ih =>
    intro h
    rcases List.pairwise_cons.mp h with ⟨hz, hzs⟩
    unfold insertChange
    by_cases h1 : changeLt x z = true
    · rw [if_pos h1]
      refine List.Pairwise.cons ?_ h
      intro b hb
      rcases List.mem_cons.mp hb with hb | hb
      · subst hb; exact h1
      · exact changeLt_trans h1 (hz b hb)
    · rw [if_neg h1]
      by_cases h2 : x = z
      · rw [if_pos h2]
        exact h
      · rw [if_neg h2]
        refine List.Pairwise.cons ?_ (ih hzs)
        intro b hb
        rcases (mem_insertChange x b zs).mp hb with hb | hb
        · rw [hb]
          have h1' : changeLt x z = false := by
            revert h1
            cases changeLt x z <;> simp
          exact changeLt_conn h1' h2
        · exact hz b hb

theorem sortedChanges_pairwise (l : List (Algo × Bytes)) :
    List.Pairwise (fun a b => changeLt a b = true) (sortedChanges l) := by
  have key : ∀ (l acc : List (Algo × Bytes)),
      List.Pairwise (fun a b => changeLt a b = true) acc →
      List.Pairwise (fun a b => changeLt a b = true)
        (l.foldl (fun s x => insertChange x s) acc) := by
    intro l
    induction l with
    | nil => exact fun acc h => h
    | cons x xs ih => exact fun acc h => ih _ (pairwise_insertChange x acc h)
  exact key l [] List.Pairwise.nil

theorem mem_sortedChanges (l : List (Algo × Bytes)) (x : Algo × Bytes) :
    x ∈ sortedChanges l ↔ x ∈ l := by
  have key : ∀ (l acc : List (Algo × Bytes)),
      x ∈ l.foldl (fun s y => insertChange y s) acc ↔ x ∈ acc ∨ x ∈ l := by
    intro l
    induction l with
    | nil => intro acc; simp
    | cons y ys ih =>
      intro acc
      show x ∈ List.foldl _ (insertChange y acc) ys ↔ _
      rw [ih]
      rw [mem_insertChange]
      simp only [List.mem_cons]
      tauto
  unfold sortedChanges
  rw [key l []]
  simp

theorem sortedChanges_nodup (l : List (Algo × Bytes)) :
    (sortedChanges l).Nodup :=
  (sortedChanges_pairwise l).imp (fun h => changeLt_ne h)

/-!
## Helper lemmas: the path-component model
-/

theorem componentsOf_no_curDir (r : RawPath) (h : Component.curDir ∉ r) :
    componentsOf r = r := by
  cases r with
  | nil => rfl
  | cons c rest =>
    show c :: rest.filter (fun x => x ≠ Component.curDir) = c :: rest
    congr 1
    apply List.filter_eq_self.mpr
    intro x hx
    have hne : x ≠ Component.curDir :=
      fun he => h (he ▸ List.mem_cons_of_mem c hx)
    exact decide_eq_true hne

theorem foldl_pushComponent (r : RawPath) (h : Component.rootDir ∉ r) :
    ∀ acc, r.foldl pushComponent acc = acc ++ r := by
  induction r with
  | nil =>
    intro acc
    simp
  | cons c cs ih =>
    intro acc
    have hc : c ≠ Component.rootDir :=
      fun he => h (he ▸ List.mem_cons_self c cs)
    show List.foldl pushComponent (pushComponent acc c) cs = acc ++ c :: cs
    rw [pushComponent, if_neg hc]
    rw [ih (fun hm => h (List.mem_cons_of_mem c hm)) (acc ++ [c])]
    simp

/-!
## Claim C10: the `drop_components` round trip
-/

/-- C10 counterexample: the round trip `drop_components(n, base.join(r)) = r`
fails for the relative path `r = "."` — `components()` normalizes the `.`
component away when it is not at the beginning of the joined path, so the
round trip returns the empty path instead of `"."`. -/
theorem drop_components_roundtrip_cex :
    Component.rootDir ∉ ([Component.curDir] : RawPath) ∧
    ¬ pathEq
      (drop_components (componentsOf [Component.normal [97]]).length
        (joinPath [Component.normal [97]] [Component.curDir]))
      [Component.curDir] := by
  decide

/-- C10 (amended): for every base path of `n` components and every relative
path `r` that contains no current-directory component,
`drop_components(n, base.join(r))` equals `r` (as Rust compares paths, by
their component sequences).  This covers every path the walker produces,
whose extra components are actual directory-entry names. -/
theorem drop_components_roundtrip (base r : RawPath)
    (hroot : Component.rootDir ∉ r) (hcur : Component.curDir ∉ r) :
    pathEq (drop_components (componentsOf base).length (joinPath base r)) r := by
  have hjoin : joinPath base r = base ++ r := by
    unfold joinPath
    rw [if_neg ?hne]
    case hne =>
      intro he
      cases r with
      | nil => exact absurd he (by simp)
      | cons c cs =>
        have hc : c = Component.rootDir := by simpa using he
        exact hroot (hc ▸ List.mem_cons_self c cs)
  rw [hjoin]
  cases base with
  | nil =>
    have h0 : (componentsOf ([] : RawPath)).length = 0 := rfl
    rw [List.nil_append, h0]
    unfold drop_components
    rw [componentsOf_no_curDir r hcur, List.drop_zero,
      foldl_pushComponent r hroot [], List.nil_append]
    exact rfl
  | cons b bs =>
    unfold drop_components
    have hfilt : r.filter (fun x => x ≠ Component.curDir) = r :=
      List.filter_eq_self.mpr
        (fun x hx => decide_eq_true (fun he => hcur (he ▸ hx)))
    have hcomp : componentsOf (b :: bs ++ r) =
        b :: (bs.filter (fun x => x ≠ Component.curDir) ++ r) := by
      show b :: (bs ++ r).filter (fun x => x ≠ Component.curDir) = _
      rw [List.filter_append, hfilt]
    have hlen : (componentsOf (b :: bs)).length =
        (bs.filter (fun x => x ≠ Component.curDir)).length + 1 := by
      show (b :: bs.filter (fun x => x ≠ Component.curDir)).length = _
      simp
    rw [hcomp, hlen, List.drop_succ_cons, List.drop_left,
      foldl_pushComponent r hroot [], List.nil_append]
    exact rfl

/-- C10 witness: the amended round trip at the base `/a` and the relative
path `b/..`. -/
theorem drop_components_roundtrip_witness :
    Component.rootDir ∉ ([Component.normal [98], Component.parentDir] : RawPath) ∧
    Component.curDir ∉ ([Component.normal [98], Component.parentDir] : RawPath) ∧
    pathEq
      (drop_components
        (componentsOf [Component.rootDir, Component.normal [97]]).length
        (joinPath [Component.rootDir, Component.normal [97]]
          [Component.normal [98], Component.parentDir]))
      [Component.normal [98], Component.parentDir] :=
  ⟨by decide, by decide,
    drop_components_roundtrip [Component.rootDir, Component.normal [97]]
      [Component.normal [98], Component.parentDir] (by decide) (by decide)⟩

/-!
## Claim C3: apply's processing order of `changes`
-/

/-- C3 counterexample: apply's `BTreeSet` iteration is NOT keyed on the path
alone.  For the manifest with `changes = [(AsIs, "a"), (XDelta3, "b")]` the
processing order is `[(XDelta3, "b"), (AsIs, "a")]` — paths descending —
because the derived order compares the `Algo` tag first. -/
theorem apply_changes_path_order_cex :
    ¬ pathsAscending (applyChangesList
      { version := crateVersion, keep_files := [],
        changes := [(Algo.AsIs, [97]), (Algo.XDelta3, [98])] }) := by
  unfold pathsAscending
  decide

/-- C3 (amended): apply processes the entries of `changes` in strictly
ascending order of the `(algo, path)` pair under the derived Rust order —
all `XDelta3` entries first in ascending path order, then all `AsIs` entries
in ascending path order; the order is deterministic but keyed on the pair,
not on the path alone. -/
theorem apply_changes_processing_order (md : MetaData) :
    List.Pairwise (fun x y : Algo × Bytes => changeLt x y = true)
      (applyChangesList md) :=
  sortedChanges_pairwise md.changes

/-!
## Claim C9: duplicate `changes` entries are collapsed by apply
-/

theorem occurrences_eq_one (c : Algo × Bytes) :
    ∀ (l : List (Algo × Bytes)), l.Nodup → c ∈ l → occurrences c l = 1 := by
  intro l
  induction l with
  | nil => intro _ h; exact absurd h (List.not_mem_nil c)
  | cons x xs ih =>
    intro hnd hmem
    rcases List.nodup_cons.mp hnd with ⟨hx, hxs⟩
    unfold occurrences at ih ⊢
    rcases List.mem_cons.mp hmem with h | h
    · subst h
      rw [List.filter_cons_of_pos (by simp)]
      have hnil : xs.filter (fun x => x = c) = [] := by
        apply List.filter_eq_nil_iff.mpr
        intro y hy
        simp only [decide_eq_true_eq]
        intro he
        exact hx (he ▸ hy)
      rw [hnil]
      rfl
    · have hxc : ¬ (x = c) := fun he => hx (he ▸ h)
      rw [List.filter_cons_of_neg (by simpa using hxc)]
      exact ih hxs h

/-- C9: collecting `md.changes` into a `BTreeSet` discards exact duplicate
`(algo, path)` pairs, so apply's reconstruction loop processes any pair that
occurs in the manifest — however many times — exactly once. -/
theorem apply_duplicate_changes_once (md : MetaData) (c : Algo × Bytes)
    (h : c ∈ md.changes) : occurrences c (applyChangesList md) = 1 := by
  have hmem : c ∈ applyChangesList md := (mem_sortedChanges md.changes c).mpr h
  have hnd : (applyChangesList md).Nodup := sortedChanges_nodup md.changes
  exact occurrences_eq_one c (applyChangesList md) hnd hmem

/-- C9 witness: a manifest listing `(AsIs, "a")` twice is processed with a
single occurrence of that pair. -/
theorem apply_duplicate_changes_once_witness :
    ((Algo.AsIs, [97]) : Algo × Bytes) ∈
      [((Algo.AsIs : Algo), ([97] : Bytes)), (Algo.AsIs, [97])] ∧
    occurrences (Algo.AsIs, [97])
      (applyChangesList
        { version := crateVersion, keep_files := [],
          changes := [(Algo.AsIs, [97]), (Algo.AsIs, [97])] }) = 1 :=
  ⟨by decide,
    apply_duplicate_changes_once
      { version := crateVersion, keep_files := [],
        changes := [(Algo.AsIs, [97]), (Algo.AsIs, [97])] }
      (Algo.AsIs, [97]) (by decide)⟩

/-!
## Claim C5: round-trip decode failure falls back to AsIs
-/

/-- C5: for a matched file (not short-circuited as a later hardlink-group
member) with `new ≠ old`, if `encode` produces a patch but decoding that
patch returns no result, the step succeeds with the AsIs fallback: the file
is removed, rewritten with the new bytes verbatim, the metadata snapshot is
reapplied, `(AsIs, p)` is appended to `changes`, `keep_files` is untouched,
and the pass continues. -/
theorem diff_decode_none_asis_fallback (env : DiffEnv)
    (lp : List (RelPath × Fsid)) (s : DiffState) (e : TargetEntry)
    (delta : Bytes)
    (hm : e.relPath ∈ s.origFiles)
    (hnl : notLaterMember lp s e)
    (hne : env.srcContent e.relPath ≠ e.content)
    (henc : env.encode e.content (env.srcContent e.relPath) = some delta)
    (hdec : env.decode delta (env.srcContent e.relPath) = none) :
    ∃ s₁, diffStep env lp s e = .ok s₁ ∧
      s₁.actions = s.actions ++
        [.removeFile e.relPath, .writeFile e.relPath e.content,
         .setMeta e.relPath e.meta] ∧
      s₁.changes = s.changes ++ [(Algo.AsIs, pathBytes e.relPath)] ∧
      s₁.keepFiles = s.keepFiles := by
  obtain ⟨s₂, hstep, ha, hc, hk⟩ := diffStep_matched_classify env lp s e hm hnl
  rw [hstep, classifyFile_decode_fail env s₂ e delta hne henc hdec]
  refine ⟨_, rfl, ?_, ?_, ?_⟩
  · show s₂.actions ++ _ = _
    rw [ha]
  · show s₂.changes ++ _ = _
    rw [hc]
  · show s₂.keepFiles = _
    exact hk

/-- C5 witness: a concrete run of the step on a single matched changed file
whose patch cannot be decoded back. -/
theorem diff_decode_none_asis_fallback_witness :
    ∃ s₁, diffStep
        { encode := fun _ _ => some [9], decode := fun _ _ => none,
          srcContent := fun _ => [1], dirMtime := fun _ => 0,
          sourceFiles := [[[97]]] } []
        (initState
          { encode := fun _ _ => some [9], decode := fun _ _ => none,
            srcContent := fun _ => [1], dirMtime := fun _ => 0,
            sourceFiles := [[[97]]] })
        ⟨[[97]], [2], ⟨0, 0, 0, 0, [], 0, 0⟩, 1⟩ = .ok s₁ ∧
      s₁.actions = [] ++
        [.removeFile [[97]], .writeFile [[97]] [2],
         .setMeta [[97]] ⟨0, 0, 0, 0, [], 0, 0⟩] ∧
      s₁.changes = [] ++ [(Algo.AsIs, pathBytes [[97]])] ∧
      s₁.keepFiles = [] :=
  diff_decode_none_asis_fallback _ [] _ _ [9] (by decide)
    (fun _ h => Option.noConfusion h) (by decide) rfl rfl

/-!
## Claim C6: identical content is stored as a zero-byte keep marker
-/

/-- C6: for a matched file (not short-circuited as a later hardlink-group
member) whose target content equals the source content, the step replaces
the file with a zero-byte file, reapplies the pre-diff target metadata
snapshot, and appends the path to `keep_files` while leaving `changes`
untouched. -/
theorem diff_identical_content_keep (env : DiffEnv)
    (lp : List (RelPath × Fsid)) (s : DiffState) (e : TargetEntry)
    (hm : e.relPath ∈ s.origFiles)
    (hnl : notLaterMember lp s e)
    (heq : env.srcContent e.relPath = e.content) :
    ∃ s₁, diffStep env lp s e = .ok s₁ ∧
      s₁.actions = s.actions ++
        [.removeFile e.relPath, .writeFile e.relPath [],
         .setMeta e.relPath e.meta] ∧
      s₁.keepFiles = s.keepFiles ++ [pathBytes e.relPath] ∧
      s₁.changes = s.changes := by
  obtain ⟨s₂, hstep, ha, hc, hk⟩ := diffStep_matched_classify env lp s e hm hnl
  rw [hstep, classifyFile_keep env s₂ e heq]
  refine ⟨_, rfl, ?_, ?_, ?_⟩
  · show s₂.actions ++ _ = _
    rw [ha]
  · show s₂.keepFiles ++ _ = _
    rw [hk]
  · show s₂.changes = _
    exact hc

/-- C6 witness: a concrete run of the step on a single matched file with
identical content. -/
theorem diff_identical_content_keep_witness :
    ∃ s₁, diffStep
        { encode := fun _ _ => some [9], decode := fun _ _ => none,
          srcContent := fun _ => [2], dirMtime := fun _ => 0,
          sourceFiles := [[[97]]] } []
        (initState
          { encode := fun _ _ => some [9], decode := fun _ _ => none,
            srcContent := fun _ => [2], dirMtime := fun _ => 0,
            sourceFiles := [[[97]]] })
        ⟨[[97]], [2], ⟨7, 0, 0, 0, [], 0, 0⟩, 1⟩ = .ok s₁ ∧
      s₁.actions = [] ++
        [.removeFile [[97]], .writeFile [[97]] [],
         .setMeta [[97]] ⟨7, 0, 0, 0, [], 0, 0⟩] ∧
      s₁.keepFiles = [] ++ [pathBytes [[97]]] ∧
      s₁.changes = [] :=
  diff_identical_content_keep _ [] _ _ (by decide)
    (fun _ h => Option.noConfusion h) rfl

/-!
## Claim C7: hardlink groups are short-circuited, first member wins
-/

/-- C7: for a matched file belonging to a hardlink group:

* if the group's representative slot is already filled with `q`, the step
  replaces the file with a hard link to `q` and records it in neither
  `changes` nor `keep_files`, and the representative slots are unchanged;
* if the slot is empty, the file becomes the group's representative and is
  classified normally — the step equals `classifyFile` on the state whose
  representative slot now holds this path, and every successful outcome
  leaves the slot pointing at this path. -/
theorem diff_hardlink_first_seen (env : DiffEnv) (lp : List (RelPath × Fsid))
    (s : DiffState) (e : TargetEntry) (fsid : Fsid)
    (hm : e.relPath ∈ s.origFiles)
    (hl : assocFind e.relPath lp = some fsid) :
    (∀ q, assocFind fsid s.reps = some q →
      ∃ s₁, diffStep env lp s e = .ok s₁ ∧
        s₁.actions = s.actions ++
          [.removeFile e.relPath, .hardLink q e.relPath] ∧
        s₁.changes = s.changes ∧ s₁.keepFiles = s.keepFiles ∧
        s₁.reps = s.reps) ∧
    (assocFind fsid s.reps = none →
      diffStep env lp s e =
        classifyFile env { matchedPre env s e with
          reps := s.reps ++ [(fsid, e.relPath)] } e ∧
      ∀ s₁, diffStep env lp s e = .ok s₁ →
        assocFind fsid s₁.reps = some e.relPath) := by
  constructor
  · intro q hq
    have hq' : assocFind fsid (matchedPre env s e).reps = some q := by
      rw [matchedPre_reps]
      exact hq
    have hstep : diffStep env lp s e = .ok { matchedPre env s e with
        actions := (matchedPre env s e).actions ++
          [.removeFile e.relPath, .hardLink q e.relPath] } := by
      unfold diffStep
      rw [if_pos hm, hl, diffStepLink_some_some env _ e fsid q hq']
    refine ⟨_, hstep, ?_, ?_, ?_, ?_⟩
    · show (matchedPre env s e).actions ++ _ = _
      rw [matchedPre_actions]
    · show (matchedPre env s e).changes = _
      exact matchedPre_changes env s e
    · show (matchedPre env s e).keepFiles = _
      exact matchedPre_keepFiles env s e
    · show (matchedPre env s e).reps = _
      exact matchedPre_reps env s e
  · intro hrep
    have hrep' : assocFind fsid (matchedPre env s e).reps = none := by
      rw [matchedPre_reps]
      exact hrep
    have heq : diffStep env lp s e =
        classifyFile env { matchedPre env s e with
          reps := s.reps ++ [(fsid, e.relPath)] } e := by
      unfold diffStep
      rw [if_pos hm, hl, diffStepLink_some_none env _ e fsid hrep',
        matchedPre_reps]
    refine ⟨heq, ?_⟩
    intro s₁ hok
    rw [heq] at hok
    obtain ⟨-, -, hrp, -, -, -⟩ := classifyFile_ok_scope env _ e s₁ hok
    rw [hrp]
    show assocFind fsid (s.reps ++ [(fsid, e.relPath)]) = some e.relPath
    exact assocFind_append_last fsid e.relPath s.reps hrep

/-- C7 witness: a concrete step on a matched file whose hardlink group
already has the representative `"b"` — the file is replaced by a hard link
and recorded nowhere. -/
theorem diff_hardlink_first_seen_witness :
    ∃ s₁, diffStep
        { encode := fun _ _ => some [9], decode := fun _ _ => none,
          srcContent := fun _ => [1], dirMtime := fun _ => 0,
          sourceFiles := [[[97]]] }
        [([[97]], (5, 6))]
        { initState
            { encode := fun _ _ => some [9], decode := fun _ _ => none,
              srcContent := fun _ => [1], dirMtime := fun _ => 0,
              sourceFiles := [[[97]]] } with
          reps := [((5, 6), [[98]])] }
        ⟨[[97]], [2], ⟨0, 0, 0, 0, [], 0, 0⟩, 2⟩ = .ok s₁ ∧
      s₁.actions = [] ++ [.removeFile [[97]], .hardLink [[98]] [[97]]] ∧
      s₁.changes = [] ∧ s₁.keepFiles = [] ∧
      s₁.reps = [((5, 6), [[98]])] :=
  (diff_hardlink_first_seen _ [([[97]], (5, 6))] _ _ (5, 6)
      (by decide) (by decide)).1 [[98]] (by decide)

/-!
## Claims C1 and C2: encode failure and the round-trip validation trap
-/

/-- C1 counterexample: with a matched file whose new content differs from the
old and whose `encode` returns no result, `diff` does NOT fall back to AsIs —
it aborts the whole operation with `XDelta3EncodeError`, and no `(ASIS, p)`
entry or manifest is produced. -/
theorem diff_encode_fail_aborts_cex :
    entChanged.relPath ∈ envEncFail.sourceFiles ∧
    envEncFail.srcContent entChanged.relPath ≠ entChanged.content ∧
    envEncFail.encode entChanged.content
      (envEncFail.srcContent entChanged.relPath) = none ∧
    diff envEncFail [entChanged] = .error ([], .XDelta3EncodeError) :=
  ⟨by decide, by decide, rfl, rfl⟩

/-- C1 (amended): during diff, for every matched file (not short-circuited
as a later hardlink-group member) whose new content differs from the old,
if the codec's `encode` returns no result the diff operation aborts
immediately with the fatal `XDelta3EncodeError`; the AsIs fallback is taken
only when the round-trip `decode` of a successfully produced patch fails. -/
theorem diff_encode_fail_aborts (env : DiffEnv)
    (entries pre post : List TargetEntry) (e : TargetEntry) (s : DiffState)
    (hsplit : entries = pre ++ e :: post)
    (hpre : diffGo env (linkGroupsOf entries) (initState env) pre = .ok s)
    (hm : e.relPath ∈ s.origFiles)
    (hnl : notLaterMember (linkGroupsOf entries) s e)
    (hne : env.srcContent e.relPath ≠ e.content)
    (henc : env.encode e.content (env.srcContent e.relPath) = none) :
    diff env entries = .error (s.actions, .XDelta3EncodeError) := by
  subst hsplit
  obtain ⟨s₂, hstep, ha, -, -⟩ :=
    diffStep_matched_classify env (linkGroupsOf (pre ++ e :: post)) s e hm hnl
  have hstep' : diffStep env (linkGroupsOf (pre ++ e :: post)) s e =
      .error (s.actions, .XDelta3EncodeError) := by
    rw [hstep, classifyFile_encode_fail env s₂ e hne henc, ha]
  have hgofull : diffGo env (linkGroupsOf (pre ++ e :: post)) (initState env)
      (pre ++ e :: post) = .error (s.actions, .XDelta3EncodeError) := by
    rw [diffGo_append, hpre]
    show diffGo env (linkGroupsOf (pre ++ e :: post)) s (e :: post) = _
    show (match diffStep env (linkGroupsOf (pre ++ e :: post)) s e with
      | .error x => (Except.error x : Except (List Action × DiffError) DiffState)
      | .ok s' => diffGo env (linkGroupsOf (pre ++ e :: post)) s' post) = _
    rw [hstep']
  unfold diff
  rw [hgofull]

/-- C1 witness: the amended abort behavior on the concrete fixture. -/
theorem diff_encode_fail_aborts_witness :
    diff envEncFail [entChanged] =
      .error ((initState envEncFail).actions, .XDelta3EncodeError) :=
  diff_encode_fail_aborts envEncFail [entChanged] [] [] entChanged
    (initState envEncFail) rfl rfl (by decide)
    (fun _ h => Option.noConfusion h) (by decide) rfl

/-- C2: during diff, for every matched file (not short-circuited as a later
hardlink-group member) with new ≠ old, if `decode(encode(new, old), old)`
succeeds but returns bytes different from `new`, the diff operation aborts
with the fatal `XDelta3FailedValidation` error, and the corrupted patch is
not written: the trace at the abort is exactly the one accumulated before
this file, and (when no earlier entry shares the path) contains no write to
this file at all. -/
theorem diff_validation_mismatch_aborts (env : DiffEnv)
    (entries pre post : List TargetEntry) (e : TargetEntry) (s : DiffState)
    (delta deflated : Bytes)
    (hsplit : entries = pre ++ e :: post)
    (hpre : diffGo env (linkGroupsOf entries) (initState env) pre = .ok s)
    (hm : e.relPath ∈ s.origFiles)
    (hnl : notLaterMember (linkGroupsOf entries) s e)
    (hne : env.srcContent e.relPath ≠ e.content)
    (henc : env.encode e.content (env.srcContent e.relPath) = some delta)
    (hdec : env.decode delta (env.srcContent e.relPath) = some deflated)
    (hmis : deflated ≠ e.content)
    (hfresh : ∀ e' ∈ pre, e'.relPath ≠ e.relPath) :
    diff env entries =
      .error (s.actions, .XDelta3FailedValidation e.relPath e.relPath) ∧
    ∀ b : Bytes, Action.writeFile e.relPath b ∉ s.actions := by
  subst hsplit
  obtain ⟨s₂, hstep, ha, -, -⟩ :=
    diffStep_matched_classify env (linkGroupsOf (pre ++ e :: post)) s e hm hnl
  have hstep' : diffStep env (linkGroupsOf (pre ++ e :: post)) s e =
      .error (s.actions, .XDelta3FailedValidation e.relPath e.relPath) := by
    rw [hstep, classifyFile_validation_fail env s₂ e delta deflated
      hne henc hdec hmis, ha]
  constructor
  · have hgofull : diffGo env (linkGroupsOf (pre ++ e :: post)) (initState env)
        (pre ++ e :: post) =
        .error (s.actions, .XDelta3FailedValidation e.relPath e.relPath) := by
      rw [diffGo_append, hpre]
      show diffGo env (linkGroupsOf (pre ++ e :: post)) s (e :: post) = _
      show (match diffStep env (linkGroupsOf (pre ++ e :: post)) s e with
        | .error x =>
            (Except.error x : Except (List Action × DiffError) DiffState)
        | .ok s' => diffGo env (linkGroupsOf (pre ++ e :: post)) s' post) = _
      rw [hstep']
    unfold diff
    rw [hgofull]
  · intro b hmem
    obtain ⟨-, ga, -, -, -⟩ :=
      diffGo_ok_scope env (linkGroupsOf (pre ++ e :: post)) pre
        (initState env) s hpre
    rcases ga _ hmem with h' | ⟨e', he', -, hf'⟩
    · exact absurd h' (List.not_mem_nil _)
    · have hpe : e.relPath = e'.relPath := by
        have h2 : some e.relPath = some e'.relPath := hf'
        injection h2
      exact hfresh e' he' hpe.symm

/-- C2 witness: the validation trap on the concrete fixture — the run aborts
and the trace at the abort is empty. -/
theorem diff_validation_mismatch_aborts_witness :
    (diff envBadCodec [entChanged] =
      .error ((initState envBadCodec).actions,
        .XDelta3FailedValidation entChanged.relPath entChanged.relPath)) ∧
    ∀ b : Bytes,
      Action.writeFile entChanged.relPath b ∉ (initState envBadCodec).actions :=
  diff_validation_mismatch_aborts envBadCodec [entChanged] [] [] entChanged
    (initState envBadCodec) [9] [7] rfl rfl (by decide)
    (fun _ h => Option.noConfusion h) (by decide) rfl rfl (by decide)
    (fun e' he' => absurd he' (List.not_mem_nil e'))

/-!
## Claim C4: finalization order — mtime restores versus the manifest write
-/

/-- C4 counterexample: on a successful concrete run, a parent-directory
mtime restore happens strictly before the manifest write — the manifest is
NOT serialized first.  (`main.rs` restores `parent_modtime_save` and only
then calls `serialize_to_json`.) -/
theorem diff_manifest_first_cex :
    diffIsOk (diff envIdCodec [entChanged]) = true ∧
    noRestoreBeforeManifest (diffActions (diff envIdCodec [entChanged])) =
      false :=
  ⟨rfl, rfl⟩

/-- C4 (amended): in diff's finalization phase every recorded
parent-directory mtime is restored FIRST and the manifest is serialized to
`target_dir/__deltaimage.meta.json` AFTERWARDS: on every successful run the
manifest write is the last action of the trace, no other action of the trace
is a manifest write, and hence every mtime restore precedes it.  (As a
consequence each recorded directory's mtime is restored to its
first-observed value, but the subsequent manifest write touches the delta
root again.) -/
theorem diff_finalization_restores_then_manifest (env : DiffEnv)
    (entries : List TargetEntry) (tr : List Action) (md : MetaData)
    (hok : diff env entries = .ok (tr, md)) :
    tr.getLast? = some (.writeManifest md) ∧
    (∀ a ∈ tr.dropLast, isManifestWrite a = false) ∧
    (∀ a ∈ tr, isRestoreMtime a = true → a ∈ tr.dropLast) := by
  unfold diff at hok
  cases hgo : diffGo env (linkGroupsOf entries) (initState env) entries with
  | error x =>
    rw [hgo] at hok
    exact absurd hok (by simp)
  | ok s =>
    rw [hgo] at hok
    obtain ⟨-, ga, -, -, -⟩ :=
      diffGo_ok_scope env (linkGroupsOf entries) entries (initState env) s hgo
    cases hok
    have hassoc : s.actions ++
        (s.parentMtimes.map fun dt => Action.restoreMtime dt.1 dt.2) ++
        [Action.writeManifest
          { version := crateVersion, keep_files := s.keepFiles,
            changes := s.changes }] =
        (s.actions ++
          (s.parentMtimes.map fun dt => Action.restoreMtime dt.1 dt.2)) ++
        [Action.writeManifest
          { version := crateVersion, keep_files := s.keepFiles,
            changes := s.changes }] := by
      rw [List.append_assoc]
    refine ⟨?_, ?_, ?_⟩
    · rw [hassoc]
      exact List.getLast?_concat _
    · intro a ha
      rw [hassoc, List.dropLast_concat] at ha
      rcases List.mem_append.mp ha with ha | ha
      · rcases ga a ha with h' | ⟨e', -, -, hf'⟩
        · exact absurd h' (List.not_mem_nil _)
        · cases a with
          | writeManifest m => exact absurd hf' (by simp [fileActionPath])
          | removeFile p => rfl
          | writeFile p c => rfl
          | setMeta p m => rfl
          | hardLink p q => rfl
          | restoreMtime d t => rfl
      · rcases List.mem_map.mp ha with ⟨dt, -, hdt⟩
        rw [← hdt]
        rfl
    · intro a hmem hrest
      rw [hassoc] at hmem
      rw [hassoc, List.dropLast_concat]
      rcases List.mem_append.mp hmem with hmem | hmem
      · exact hmem
      · rcases List.mem_singleton.mp hmem with h
        rw [h] at hrest
        exact absurd hrest (by simp [isRestoreMtime])

/-- C4 witness: the finalization-order facts on the concrete fixture. -/
theorem diff_finalization_restores_then_manifest_witness :
    (diffActions (diff envIdCodec [entChanged])).getLast? =
      some (.writeManifest (diffManifest (diff envIdCodec [entChanged]))) ∧
    (∀ a ∈ (diffActions (diff envIdCodec [entChanged])).dropLast,
      isManifestWrite a = false) ∧
    (∀ a ∈ diffActions (diff envIdCodec [entChanged]),
      isRestoreMtime a = true →
        a ∈ (diffActions (diff envIdCodec [entChanged])).dropLast) :=
  diff_finalization_restores_then_manifest envIdCodec [entChanged]
    (diffActions (diff envIdCodec [entChanged]))
    (diffManifest (diff envIdCodec [entChanged])) rfl

/-!
## Claim C8: target-only files pass through untouched and unrecorded
-/

/-- C8: for every file of the target walk whose path is not a source path
(not even up to the byte encoding used by the manifest), a successful diff
performs no filesystem action on that file — no remove, write, metadata
write, or hard link at its path — and its path bytes appear in neither
`keep_files` nor `changes` of the produced manifest. -/
theorem diff_target_only_untouched (env : DiffEnv)
    (entries : List TargetEntry) (tr : List Action) (md : MetaData)
    (p : RelPath)
    (hok : diff env entries = .ok (tr, md))
    (hin : p ∈ entries.map TargetEntry.relPath)
    (hsrc : pathBytes p ∉ env.sourceFiles.map pathBytes) :
    (∀ a ∈ tr, fileActionPath a ≠ some p) ∧
    pathBytes p ∉ md.keep_files ∧
    (∀ alg : Algo, (alg, pathBytes p) ∉ md.changes) := by
  unfold diff at hok
  cases hgo : diffGo env (linkGroupsOf entries) (initState env) entries with
  | error x =>
    rw [hgo] at hok
    exact absurd hok (by simp)
  | ok s =>
    rw [hgo] at hok
    obtain ⟨-, ga, gb, gc, -⟩ :=
      diffGo_ok_scope env (linkGroupsOf entries) entries (initState env) s hgo
    have hsourceOf : ∀ e' : TargetEntry,
        e'.relPath ∈ (initState env).origFiles →
        pathBytes e'.relPath ∈ env.sourceFiles.map pathBytes := by
      intro e' he'
      have h2 : e'.relPath ∈ mkOrigFiles env.sourceFiles := he'
      rw [mem_mkOrigFiles] at h2
      exact List.mem_map_of_mem pathBytes h2
    cases hok
    refine ⟨?_, ?_, ?_⟩
    · intro a hmem heq
      rcases List.mem_append.mp hmem with hmem | hmem
      · rcases List.mem_append.mp hmem with hmem | hmem
        · rcases ga a hmem with h' | ⟨e', -, hp', hf'⟩
          · exact absurd h' (List.not_mem_nil _)
          · have h2 : some p = some e'.relPath := heq ▸ hf'
            have hpe : p = e'.relPath := by injection h2
            exact hsrc (hpe ▸ hsourceOf e' hp')
        · rcases List.mem_map.mp hmem with ⟨dt, -, hdt⟩
          rw [← hdt] at heq
          exact absurd heq (by simp [fileActionPath])
      · rcases List.mem_singleton.mp hmem with h
        rw [h] at heq
        exact absurd heq (by simp [fileActionPath])
    · intro hmemk
      rcases gb _ hmemk with h' | ⟨e', -, hp', hf'⟩
      · exact absurd h' (List.not_mem_nil _)
      · exact hsrc (hf' ▸ hsourceOf e' hp')
    · intro alg hmemc
      rcases gc _ hmemc with h' | ⟨e', -, hp', hf'⟩
      · exact absurd h' (List.not_mem_nil _)
      · have h2 : pathBytes p = pathBytes e'.relPath := hf'
        exact hsrc (h2 ▸ hsourceOf e' hp')

/-- C8 witness: a run with the matched identical file `"a"` and the
target-only file `"b"` — `"b"` is untouched and absent from both lists. -/
theorem diff_target_only_untouched_witness :
    (∀ a ∈ diffActions (diff envIdCodec
        [entChanged, ⟨[[98]], [5], ⟨0, 0, 0, 0, [], 0, 0⟩, 1⟩]),
      fileActionPath a ≠ some [[98]]) ∧
    pathBytes [[98]] ∉ (diffManifest (diff envIdCodec
      [entChanged, ⟨[[98]], [5], ⟨0, 0, 0, 0, [], 0, 0⟩, 1⟩])).keep_files ∧
    (∀ alg : Algo, (alg, pathBytes [[98]]) ∉ (diffManifest (diff envIdCodec
      [entChanged, ⟨[[98]], [5], ⟨0, 0, 0, 0, [], 0, 0⟩, 1⟩])).changes) :=
  diff_target_only_untouched envIdCodec
    [entChanged, ⟨[[98]], [5], ⟨0, 0, 0, 0, [], 0, 0⟩, 1⟩]
    (diffActions (diff envIdCodec
      [entChanged, ⟨[[98]], [5], ⟨0, 0, 0, 0, [], 0, 0⟩, 1⟩]))
    (diffManifest (diff envIdCodec
      [entChanged, ⟨[[98]], [5], ⟨0, 0, 0, 0, [], 0, 0⟩, 1⟩]))
    [[98]] rfl (by decide) (by decide)

end Deltaimage



